import Mathlib

/-!
Verification development for the heuristic text-extraction engine of
`backend/app/utils.py`: heading segmentation (`parse_cdr_text`), the
key-value rule cascade (`extract_key_values`) and the APM reconciler
(`extract_apm_from_text` with `find_owner_email_in_block`).

Text is modelled as `List Char`; Python dicts (which preserve insertion
order and overwrite values in place) are modelled as association lists
with the operations `lookupKV` / `insertKV`.
-/

set_option maxRecDepth 20000

abbrev LC := List Char

/-- Python whitespace for `str.strip` and the regex class `\s` (ASCII range). -/
def isSpaceC (c : Char) : Bool :=
  c == ' ' || c == '\t' || c == '\n' || c == '\r' || c == '\x0b' || c == '\x0c'

/-- ASCII lower-casing, as `str.lower` behaves on the ASCII inputs at hand. -/
def toLowerC (c : Char) : Char :=
  if 'A' ≤ c && c ≤ 'Z' then Char.ofNat (c.toNat + 32) else c

def lowerL (s : LC) : LC := s.map toLowerC

/-- `str.strip()`: drop leading and trailing whitespace. -/
def stripL (s : LC) : LC :=
  ((s.dropWhile isSpaceC).reverse.dropWhile isSpaceC).reverse

/-- `text.replace('\r', '')`. -/
def removeCR (s : LC) : LC := s.filter (fun c => c != '\r')

def containsChar (s : LC) (c : Char) : Bool := s.any (fun x => x == c)

/-- `str.splitlines()` restricted to `'\n'` separators (the pipeline removes
`'\r'` first): no trailing empty piece is produced for a trailing newline. -/
def splitlinesAux : LC → LC → List LC
  | [], cur => if cur.isEmpty then [] else [cur.reverse]
  | '\n' :: rest, cur => cur.reverse :: splitlinesAux rest []
  | c :: rest, cur => splitlinesAux rest (c :: cur)

def splitlinesP (s : LC) : List LC := splitlinesAux s []

/-- `"\n".join(lines)`. -/
def joinNL : List LC → LC
  | [] => []
  | [x] => x
  | x :: xs => x ++ '\n' :: joinNL xs

/-- First occurrence index of `pat` in `s` (`str.find`, `none` for `-1`). -/
def findSubAux (pat : LC) : LC → Nat → Option Nat
  | s, i =>
    if pat.isPrefixOf s then some i
    else match s with
      | [] => none
      | _ :: cs => findSubAux pat cs (i + 1)

def findSub (s pat : LC) : Option Nat := findSubAux pat s 0

/-- Python substring containment `pat in s`. -/
def containsSub (s pat : LC) : Bool := (findSub s pat).isSome

/-- Python slice `s[a:b]` (clamped, empty when `a ≥ b`). -/
def sliceLC (s : LC) (a b : Nat) : LC := (s.drop a).take (b - a)

/-- Leading-separator removal `re.sub(r"^[:\|\-\s]+", "", v)`. -/
def dropSeps (s : LC) : LC :=
  s.dropWhile (fun c => c == ':' || c == '|' || c == '-' || isSpaceC c)

/-- `re.sub(r"\s+", " ", s)`: collapse every whitespace run to one space. -/
def collapseAux : Bool → LC → LC
  | _, [] => []
  | inRun, c :: cs =>
    if isSpaceC c then
      if inRun then collapseAux true cs else ' ' :: collapseAux true cs
    else c :: collapseAux false cs

/-- `re.sub(r"\s+", " ", s).strip()`. -/
def collapseWS (s : LC) : LC := stripL (collapseAux false s)

/-- `v.replace("|", ",")`. -/
def replacePipe (s : LC) : LC := s.map (fun c => if c == '|' then ',' else c)

/-! ### Association lists standing for Python dicts -/

def lookupKV {K V : Type} [DecidableEq K] : List (K × V) → K → Option V
  | [], _ => none
  | (k', v') :: rest, k => if k' = k then some v' else lookupKV rest k

/-- Dict assignment `m[k] = v`: overwrite in place, else append. -/
def insertKV {K V : Type} [DecidableEq K] : List (K × V) → K → V → List (K × V)
  | [], k, v => [(k, v)]
  | (k', v') :: rest, k, v =>
    if k' = k then (k', v) :: rest else (k', v') :: insertKV rest k v

def containsKey {K V : Type} [DecidableEq K] (m : List (K × V)) (k : K) : Bool :=
  (lookupKV m k).isSome

/-! ### Regex-mirroring helpers for `extract_key_values` -/

/-- `line.split(":", 1)`: split at the first colon, `none` when absent. -/
def splitFirstColon : LC → Option (LC × LC)
  | [] => none
  | c :: cs =>
    if c = ':' then some ([], cs)
    else match splitFirstColon cs with
      | some (k, v) => some (c :: k, v)
      | none => none

/-- `re.split(r"\s{2,}|\t", line, maxsplit=1)`: the first match of the
separator regex is either a two-or-longer whitespace run (taken greedily)
or a single tab; returns the pieces around it. -/
def gapFind : LC → Option (LC × LC)
  | [] => none
  | [c] => if c = '\t' then some ([], []) else none
  | c1 :: c2 :: rest =>
    if (isSpaceC c1 && isSpaceC c2) || c1 = '\t' then
      let run := (c1 :: c2 :: rest).takeWhile isSpaceC
      some ([], (c1 :: c2 :: rest).drop run.length)
    else match gapFind (c2 :: rest) with
      | some (pre, post) => some (c1 :: pre, post)
      | none => none

/-- `line.rsplit(" ", 1)`: split at the last literal space, `none` when absent. -/
def lastSpaceSplit : LC → Option (LC × LC)
  | [] => none
  | c :: cs =>
    match lastSpaceSplit cs with
    | some (k, v) => some (c :: k, v)
    | none => if c = ' ' then some ([], cs) else none

/-- `re.search(r"@[^.\s]+$", prev)`: some `'@'` is followed by a non-empty
run, extending to the end, of characters that are neither `'.'` nor
whitespace. -/
def emailFragEnd : LC → Bool
  | [] => false
  | c :: rest =>
    (c == '@' && !rest.isEmpty && rest.all (fun d => d != '.' && !isSpaceC d))
      || emailFragEnd rest

/-- `\w` of Python's `re` on the ASCII inputs at hand. -/
def isWordC (c : Char) : Bool :=
  ('a' ≤ c && c ≤ 'z') || ('A' ≤ c && c ≤ 'Z') || ('0' ≤ c && c ≤ '9') || c == '_'

/-- The character class `[\w.-]`. -/
def emailChar (c : Char) : Bool := isWordC c || c == '.' || c == '-'

def isAlphaC (c : Char) : Bool := ('a' ≤ c && c ≤ 'z') || ('A' ≤ c && c ≤ 'Z')

/-- `[a-zA-Z]{2,}` anchored at the end: the rest is all letters, at least two. -/
def isTld (rest : LC) : Bool := decide (2 ≤ rest.length) && rest.all isAlphaC

/-- `re.match(r"^[\w.-]+\.[a-z]{2,}$", s, re.IGNORECASE)`: some `'.'` splits
`s` into a non-empty all-`[\w.-]` left part and an all-letter right part of
length at least two.  `allEC` records whether the prefix consumed so far is
all `[\w.-]`, `ne` whether it is non-empty. -/
def domainGo : Bool → Bool → LC → Bool
  | _, _, [] => false
  | allEC, ne, c :: rest =>
    (c == '.' && allEC && ne && isTld rest) || domainGo (allEC && emailChar c) true rest

def domainLine (s : LC) : Bool := domainGo true false s

/-! ### `extract_key_values` -/

/-- Stable insertion keeping elements for which `le y x` holds in front:
generic form shared by the two sorts in the source. -/
def insertBy {α : Type} (le : α → α → Bool) (x : α) : List α → List α
  | [] => [x]
  | y :: ys => if le y x then y :: insertBy le x ys else x :: y :: ys

def sortBy {α : Type} (le : α → α → Bool) (l : List α) : List α :=
  l.foldl (fun acc x => insertBy le x acc) []

/-- `sorted(expected_keys, key=lambda s: -len(s))`: stable sort,
longer keys first (`utils.py` line 115). -/
def sortKeysDesc (eks : List LC) : List LC :=
  sortBy (fun y x => decide (x.length ≤ y.length)) eks

/-- Rule 0 (`utils.py` lines 126-134): first expected key, in
longest-first order, whose lowered form is a prefix of the lowered line;
the value is the remainder with separators stripped. -/
def matchExpectedKey : List LC → LC → Option (LC × LC)
  | [], _ => none
  | ek :: rest, line =>
    if (lowerL ek).isPrefixOf (lowerL line) then
      some (ek, dropSeps (stripL (line.drop ek.length)))
    else matchExpectedKey rest line

/-- Rule 3 (`utils.py` lines 155-168): first expected key of which the
line's first word is a prefix, provided the computed value is non-empty. -/
def rule3Match (fw : LC) : List LC → LC → Option (LC × LC)
  | [], _ => none
  | ek :: rest, line =>
    if fw.isPrefixOf (lowerL ek) then
      let value := dropSeps (stripL (line.drop ek.length))
      if value.isEmpty then rule3Match fw rest line else some (ek, value)
    else rule3Match fw rest line

def rule3Try (ekl : List LC) (line : LC) : Option (LC × LC) :=
  if containsChar line ' ' && !ekl.isEmpty then
    rule3Match (lowerL (line.takeWhile (fun c => c != ' '))) ekl line
  else none

def rule4Try (line : LC) : Option (LC × LC) :=
  match lastSpaceSplit line with
  | some (k, v) => if 1 < k.length then some (k, v) else none
  | none => none

structure KVState where
  result : List (LC × LC)
  lastKey : Option LC
  deriving Repr, DecidableEq

/-- Rule 5 (`utils.py` lines 178-198): continuation stitching onto the
last assigned key. -/
def stitchResult (st : KVState) (line : LC) : Option (List (LC × LC)) :=
  match st.lastKey with
  | none => none
  | some lk =>
    if lk.isEmpty then none
    else match lookupKV st.result lk with
      | none => none
      | some prev =>
        if prev.isEmpty then some (insertKV st.result lk line)
        else if containsChar prev '@' && emailFragEnd prev then
          some (insertKV st.result lk (prev ++ line))
        else if containsChar prev '@' && domainLine (stripL line) then
          some (insertKV st.result lk (prev ++ stripL line))
        else if containsChar line '|' ||
            (!containsChar line ':' && !(gapFind line).isSome) then
          some (insertKV st.result lk (prev ++ ' ' :: line))
        else none

/-- The synthetic free-text key `f"text_{idx}"`. -/
def digitC : Nat → Char
  | 0 => '0' | 1 => '1' | 2 => '2' | 3 => '3' | 4 => '4'
  | 5 => '5' | 6 => '6' | 7 => '7' | 8 => '8' | _ => '9'

def natToDigitsAux : Nat → Nat → LC
  | 0, _ => []
  | fuel + 1, n =>
    if n < 10 then [digitC n]
    else natToDigitsAux fuel (n / 10) ++ [digitC (n % 10)]

def natToStr (n : Nat) : LC := natToDigitsAux (n + 1) n

def textKey (i : Nat) : LC := "text_".toList ++ natToStr i

/-- Decimal digit decoding, inverse to `digitC` (used to reason about the
injectivity of `textKey`). -/
def digitVal (c : Char) : Nat :=
  if c = '0' then 0 else if c = '1' then 1 else if c = '2' then 2
  else if c = '3' then 3 else if c = '4' then 4 else if c = '5' then 5
  else if c = '6' then 6 else if c = '7' then 7 else if c = '8' then 8 else 9

def digitsVal (l : LC) : Nat := l.foldl (fun a c => a * 10 + digitVal c) 0

/-- The `while key in result` search for the least unused index
(`utils.py` lines 204-209); the fuel `|result| + 1` always suffices. -/
def freshAux (res : List (LC × LC)) : Nat → Nat → Nat
  | 0, i => i
  | fuel + 1, i => if containsKey res (textKey i) then freshAux res fuel (i + 1) else i

def freshTextIdx (res : List (LC × LC)) : Nat := freshAux res (res.length + 1) 0

/-- One iteration of the per-line loop of `extract_key_values`
(`utils.py` lines 121-211), rules tried in source order. -/
def processLine (ekl : List LC) (st : KVState) (line : LC) : KVState :=
  match matchExpectedKey ekl line with
  | some (k, v) => ⟨insertKV st.result k v, some k⟩
  | none =>
  match splitFirstColon line with
  | some (k, v) =>
    let ks := stripL k
    ⟨insertKV st.result ks (stripL v), some ks⟩
  | none =>
  match gapFind line with
  | some (k, v) =>
    let ks := stripL k
    ⟨insertKV st.result ks (stripL v), some ks⟩
  | none =>
  match rule3Try ekl line with
  | some (k, v) => ⟨insertKV st.result k v, some k⟩
  | none =>
  match rule4Try line with
  | some (k, v) =>
    let ks := stripL k
    ⟨insertKV st.result ks (stripL v), some ks⟩
  | none =>
  match stitchResult st line with
  | some res => ⟨res, st.lastKey⟩
  | none =>
    let n := freshTextIdx st.result
    ⟨insertKV st.result (textKey n) line, some (textKey n)⟩

/-- `extract_key_values` (`utils.py` lines 96-213); an absent
`expected_keys` is the empty list (both are falsy in the source). -/
def extract_key_values (text : LC) (expected_keys : List LC) : List (LC × LC) :=
  if text.isEmpty then []
  else
    let lines := ((splitlinesP text).map stripL).filter (fun l => !l.isEmpty)
    (lines.foldl (processLine (sortKeysDesc expected_keys)) ⟨[], none⟩).result

/-! ### `parse_cdr_text` -/

def HEADING_KEYWORDS : List LC :=
  ["Purpose".toList, "Architects".toList, "Audience".toList,
   "Context and Problem Statement".toList, "Decisions".toList,
   "Decision drivers".toList, "Decision".toList,
   "High-Level AWS Architecture".toList, "Technical Specifications".toList,
   "Database".toList, "Key Points / Notes".toList, "Rationale".toList,
   "Authors".toList, "Contributors".toList]

/-- The `positions` dict (`utils.py` lines 68-73): offset of the first
literal occurrence of each heading, later headings overwriting earlier
ones found at the same offset. -/
def positionsList (t : LC) : List (Nat × LC) :=
  HEADING_KEYWORDS.foldl
    (fun m h => match findSub t h with
      | some i => insertKV m i h
      | none => m) []

/-- `sorted(positions.keys())` with the headings carried along. -/
def sortedPositions (t : LC) : List (Nat × LC) :=
  sortBy (fun a b => a.1 ≤ b.1) (positionsList t)

/-- Content spans (`utils.py` lines 81-88): each runs from just after the
heading's occurrence to the next found offset, or to the document end. -/
def spansFrom (total : Nat) : List (Nat × LC) → List (LC × Nat × Nat)
  | [] => []
  | (p, h) :: rest =>
    (h, p + h.length,
      match rest with
      | (q, _) :: _ => q
      | [] => total) :: spansFrom total rest

def cdrSpans (t : LC) : List (LC × Nat × Nat) :=
  spansFrom t.length (sortedPositions t)

/-- `content.strip()` followed by `re.sub(r"^[:\-\s]+", "", content)`. -/
def cleanContent (s : LC) : LC :=
  (stripL s).dropWhile (fun c => c == ':' || c == '-' || isSpaceC c)

/-- `re.split(r"\n\s*\n", t)`: the separator is a newline, a greedy
whitespace run, and a final newline; backtracking picks the last newline
inside the run. -/
def lastNewlineIdx : LC → Option Nat
  | [] => none
  | c :: cs =>
    match lastNewlineIdx cs with
    | some j => some (j + 1)
    | none => if c = '\n' then some 0 else none

def paraSepAt : LC → Option LC
  | '\n' :: rest =>
    match lastNewlineIdx (rest.takeWhile isSpaceC) with
    | some j => some (rest.drop (j + 1))
    | none => none
  | _ => none

def splitParasAux : Nat → LC → LC → List LC
  | 0, s, cur => [cur.reverse ++ s]
  | fuel + 1, s, cur =>
    match s with
    | [] => [cur.reverse]
    | c :: cs =>
      match paraSepAt (c :: cs) with
      | some rest => cur.reverse :: splitParasAux fuel rest []
      | none => splitParasAux fuel cs (c :: cur)

def splitParas (s : LC) : List LC := splitParasAux s.length s []

/-- The fallback body (`utils.py` lines 76-78): first non-empty stripped
blank-line-separated paragraph, else the whole (CR-normalized) text. -/
def bodyFallback (u : LC) : LC :=
  match ((splitParas u).map stripL).filter (fun p => !p.isEmpty) with
  | p :: _ => p
  | [] => u

/-- `parse_cdr_text` (`utils.py` lines 56-93). -/
def parse_cdr_text (text : LC) : List (LC × LC) :=
  if text.isEmpty then []
  else
    let t := removeCR text
    if (positionsList t).isEmpty then
      [("body".toList, bodyFallback t)]
    else
      (cdrSpans t).foldl
        (fun m s => insertKV m s.1 (cleanContent (sliceLC t s.2.1 s.2.2))) []

/-! ### `extract_apm_from_text` -/

def expectedKeysAPM : List LC :=
  ["Details".toList, "Service offering".toList, "Automated Service".toList,
   "Environment".toList, "APM Name".toList, "APM ID".toList, "MIO".toList,
   "Business Unit".toList, "Application Owner".toList, "Compliance".toList,
   "Application Service Level commitment".toList,
   "Strategic Project ID".toList, "Operational Project ID".toList,
   "PMS ID".toList, "Backup Policy".toList, "Network Zone".toList,
   "Patching Wave".toList]

/-- Case-insensitive literal consumption: `pat` is given lowered. -/
def consumeCI (pat : LC) (s : LC) : Option LC :=
  if lowerL (s.take pat.length) = pat then some (s.drop pat.length) else none

/-- One attempt of `re.compile(r"Application\s*Portfolio\s*Management\s*Details",
re.IGNORECASE)` at the head of `s`, returning the text after `m.end()`. -/
def matchHeadingAt (s : LC) : Option LC := do
  let r1 ← consumeCI "application".toList s
  let r2 ← consumeCI "portfolio".toList (r1.dropWhile isSpaceC)
  let r3 ← consumeCI "management".toList (r2.dropWhile isSpaceC)
  consumeCI "details".toList (r3.dropWhile isSpaceC)

/-- `heading_regex.search(t)` and the suffix `t[m.end():]`. -/
def findAnchor : LC → Option LC
  | [] => none
  | c :: cs =>
    match matchHeadingAt (c :: cs) with
    | some rest => some rest
    | none => findAnchor cs

/-- The line-collection loop after the anchor (`utils.py` lines 239-251):
stop at two consecutive blank lines, or break once more than 200 lines
are collected. -/
def collectAux : List LC → Nat → List LC → List LC
  | [], _, take => take
  | ln :: rest, blank, take =>
    if (stripL ln).isEmpty then
      if 2 ≤ blank + 1 then take else collectAux rest (blank + 1) take
    else
      let t' := take ++ [ln]
      if 200 < t'.length then t' else collectAux rest 0 t'

def collectTake (lines : List LC) : List LC := collectAux lines 0 []

def anchorBlock (t : LC) : LC :=
  match findAnchor t with
  | some rest => joinNL (collectTake (splitlinesP rest))
  | none => []

/-- The keyword-proximity fallback (`utils.py` lines 275-286): for every
line containing an expected key (case-insensitively), the line and the
next ten are appended to the candidates, once per matching key. -/
def candidatesOf (t : LC) : List LC :=
  let lines := splitlinesP t
  lines.enum.foldl
    (fun acc p =>
      expectedKeysAPM.foldl
        (fun a ek =>
          if containsSub (lowerL p.2) (lowerL ek) then a ++ sliceList lines p.1 (p.1 + 11)
          else a) acc) []
where
  sliceList (l : List LC) (a b : Nat) : List LC := (l.drop a).take (b - a)

/-- Block selection (`utils.py` lines 232-290): anchor window, else
keyword candidates, else the whole text. -/
def blockOf (t : LC) : LC :=
  let b := anchorBlock t
  if !b.isEmpty then b
  else
    let c := candidatesOf t
    let j := if c.isEmpty then [] else joinNL c
    if j.isEmpty then t else j

/-- `https?://\S+` matched at the head: returns the total match length
(the greedy `\S+` run must be non-empty). -/
def httpMatch (s : LC) : Option Nat :=
  if ("https://".toList).isPrefixOf s then
    if ((s.drop 8).takeWhile (fun c => !isSpaceC c)).isEmpty then none
    else some (8 + ((s.drop 8).takeWhile (fun c => !isSpaceC c)).length)
  else if ("http://".toList).isPrefixOf s then
    if ((s.drop 7).takeWhile (fun c => !isSpaceC c)).isEmpty then none
    else some (7 + ((s.drop 7).takeWhile (fun c => !isSpaceC c)).length)
  else none

/-- `re.sub(r"https?://\S+", "", block)`: remove non-overlapping matches
scanning left to right. -/
def stripURLsAux : Nat → LC → LC
  | 0, s => s
  | fuel + 1, s =>
    match s with
    | [] => []
    | c :: cs =>
      match httpMatch (c :: cs) with
      | some n => stripURLsAux fuel ((c :: cs).drop n)
      | none => c :: stripURLsAux fuel cs

def stripURLs (s : LC) : LC := stripURLsAux s.length s

/-- A URL-looking substring (`http://` or `https://` followed by at least
one non-space character) occurs somewhere. -/
def hasURL : LC → Bool
  | [] => false
  | c :: cs => (httpMatch (c :: cs)).isSome || hasURL cs

/-- Key normalization (`utils.py` lines 310-311): keep only lowercase
alphanumerics of the lowered key. -/
def normKey (s : LC) : LC :=
  (lowerL s).filter (fun c => ('a' ≤ c && c ≤ 'z') || ('0' ≤ c && c ≤ '9'))

/-- The `cleaned` dict (`utils.py` lines 299-307). -/
def cleanKV (kv : List (LC × LC)) : List (LC × LC) :=
  kv.foldl (fun m p => insertKV m (collapseWS p.1) (collapseWS (replacePipe p.2))) []

/-- `cleaned[cleaned_norm_map[nk]]`: the dict comprehension keeps the last
key with a given normalized form, and `cleaned`'s keys are distinct. -/
def lookupNormLast : List (LC × LC) → LC → Option LC
  | [], _ => none
  | (k, v) :: rest, nk =>
    match lookupNormLast rest nk with
    | some r => some r
    | none => if normKey k = nk then some v else none

/-- Projection onto the expected keys (`utils.py` lines 315-321). -/
def projectFinal (eks : List LC) (cleaned : List (LC × LC)) : List (LC × LC) :=
  eks.map (fun key =>
    (key, match lookupNormLast cleaned (normKey key) with
      | some v => v
      | none => []))

/-! Email search `[\w\.-]+@[\w\.-]+\.[a-zA-Z]{2,}` with Python's
leftmost-then-greedy-with-backtracking semantics. -/

def tldRunAfterDot (D : LC) (j : Nat) : LC := (D.drop (j + 1)).takeWhile isAlphaC

def dotOK (D : LC) (j : Nat) : Bool :=
  (D.drop j).take 1 == ['.'] && decide (2 ≤ (tldRunAfterDot D j).length)

/-- Largest `j ≥ 1` (tried first, as the greedy `[\w\.-]+` backtracks)
such that `D` has a dot at `j` followed by at least two letters. -/
def bestDotAux (D : LC) : Nat → Option Nat
  | 0 => none
  | j + 1 => if dotOK D (j + 1) then some (j + 1) else bestDotAux D j

def matchEmailAt (s : LC) : Option LC :=
  let L := s.takeWhile emailChar
  if L.isEmpty then none
  else match s.drop L.length with
    | '@' :: rest =>
      let D := rest.takeWhile emailChar
      match bestDotAux D D.length with
      | some j => some (L ++ '@' :: (D.take j ++ '.' :: tldRunAfterDot D j))
      | none => none
    | _ => none

def emailSearch : LC → Option LC
  | [] => none
  | c :: cs =>
    match matchEmailAt (c :: cs) with
    | some e => some e
    | none => emailSearch cs

/-- One attempt of `re.search(r"application\s*owner", ln, re.IGNORECASE)`. -/
def appOwnerAt (s : LC) : Bool :=
  match consumeCI "application".toList s with
  | some r => (consumeCI "owner".toList (r.dropWhile isSpaceC)).isSome
  | none => false

def appOwnerFound : LC → Bool
  | [] => false
  | c :: cs => appOwnerAt (c :: cs) || appOwnerFound cs

/-- First tier of `find_owner_email_in_block` (`utils.py` lines 332-339):
for each line mentioning the owner label, search the window of that line
plus the next `max_lines_after` lines. -/
def ownerTier1 (maxLinesAfter : Nat) : List LC → Option LC
  | [] => none
  | ln :: rest =>
    if appOwnerFound ln then
      match emailSearch (joinNL ((ln :: rest).take (maxLinesAfter + 1))) with
      | some e => some e
      | none => ownerTier1 maxLinesAfter rest
    else ownerTier1 maxLinesAfter rest

/-- `find_owner_email_in_block` (`utils.py` lines 323-346). -/
def find_owner_email_in_block (blk : LC) (maxLinesAfter : Nat) : LC :=
  match ownerTier1 maxLinesAfter (splitlinesP blk) with
  | some e => e
  | none =>
    match emailSearch blk with
    | some e => e
    | none => []

/-- `ao_key`: first key of `final` whose normalized form is
`"applicationowner"` (`utils.py` lines 349-353). -/
def findAOKey (m : List (LC × LC)) : Option LC :=
  (m.map Prod.fst).find? (fun k => normKey k == "applicationowner".toList)

/-- Targeted owner recovery (`utils.py` lines 355-358). -/
def applyRecovery (blk : LC) (m : List (LC × LC)) : List (LC × LC) :=
  match findAOKey m with
  | none => m
  | some ao =>
    match lookupKV m ao with
    | some v =>
      if !v.isEmpty then m
      else
        let e := find_owner_email_in_block blk 20
        if e.isEmpty then m else insertKV m ao e
    | none =>
      let e := find_owner_email_in_block blk 20
      if e.isEmpty then m else insertKV m ao e

/-- The URL-stripped block handed to the extractor (`utils.py` line 293). -/
def blockUsed (text : LC) : LC := stripURLs (blockOf (removeCR text))

/-- The projection stage of the pipeline (`utils.py` lines 296-321). -/
def projOf (text : LC) : List (LC × LC) :=
  projectFinal expectedKeysAPM
    (cleanKV (extract_key_values (blockUsed text) expectedKeysAPM))

/-- `extract_apm_from_text` (`utils.py` lines 217-360). -/
def extract_apm_from_text (text : LC) : List (LC × LC) :=
  if text.isEmpty then []
  else applyRecovery (blockUsed text) (projOf text)

/-- Concrete scenario: anchor heading, an `"Application Owner"` line with
no directly captured value, `"contact: bob@corp.io"` eight lines later
inside the block, and an email that occurs only outside the selected
block (after two blank lines). -/
def ownerScenario : LC :=
  ("Application Portfolio Management Details\n" ++
   "Application Owner\n" ++
   "F1: x1\nF2: x2\nF3: x3\nF4: x4\nF5: x5\nF6: x6\nF7: x7\n" ++
   "contact: bob@corp.io\n\n\n" ++
   "outside: evil@bad.com").toList

/-- Input whose selected block contains the literal sentence
`"See https://internal/doc for details"` yet yields a captured value
containing `"https://internal/doc"`, reassembled by stitching. -/
def urlScenario : LC :=
  ("Application Portfolio Management Details\n" ++
   "See https://internal/doc for details\n" ++
   "MIO: a@https:/\n" ++
   "/internal/doc").toList


/-! ### Lemmas about the association-list dictionary -/

section MapLemmas

variable {K V : Type} [DecidableEq K]

theorem lookupKV_eq_none_iff (m : List (K × V)) (k : K) :
    lookupKV m k = none ↔ k ∉ m.map Prod.fst := by
  induction m with
  | nil => simp [lookupKV]
  | cons p rest ih =>
    obtain ⟨k', v'⟩ := p
    by_cases h : k' = k
    · subst h; simp [lookupKV]
    · simp [lookupKV, h, ih, Ne.symm h]

theorem lookupKV_insertKV_self (m : List (K × V)) (k : K) (v : V) :
    lookupKV (insertKV m k v) k = some v := by
  induction m with
  | nil => simp [insertKV, lookupKV]
  | cons p rest ih =>
    obtain ⟨k', v'⟩ := p
    by_cases h : k' = k
    · subst h; simp [insertKV, lookupKV]
    · simp [insertKV, lookupKV, h, ih]

theorem lookupKV_insertKV_ne (m : List (K × V)) (k k' : K) (v : V) (h : k' ≠ k) :
    lookupKV (insertKV m k v) k' = lookupKV m k' := by
  induction m with
  | nil => simp [insertKV, lookupKV, Ne.symm h]
  | cons p rest ih =>
    obtain ⟨k0, v0⟩ := p
    by_cases h0 : k0 = k
    · subst h0; simp [insertKV, lookupKV, Ne.symm h]
    · by_cases h1 : k0 = k'
      · subst h1; simp [insertKV, lookupKV, h0]
      · simp [insertKV, lookupKV, h0, h1, ih]

theorem keys_insertKV (m : List (K × V)) (k : K) (v : V) :
    (insertKV m k v).map Prod.fst =
      if k ∈ m.map Prod.fst then m.map Prod.fst else m.map Prod.fst ++ [k] := by
  induction m with
  | nil => simp [insertKV]
  | cons p rest ih =>
    obtain ⟨k', v'⟩ := p
    by_cases h : k' = k
    · subst h; simp [insertKV]
    · simp only [insertKV, if_neg h, List.map_cons, ih]
      by_cases hm : k ∈ rest.map Prod.fst
      · simp [hm, Ne.symm h]
      · simp [hm, Ne.symm h]

theorem keys_insertKV_mem (m : List (K × V)) (k : K) (v : V)
    (h : k ∈ m.map Prod.fst) :
    (insertKV m k v).map Prod.fst = m.map Prod.fst := by
  simp [keys_insertKV, h]

theorem insertKV_of_lookup_none (m : List (K × V)) (k : K) (v : V)
    (h : lookupKV m k = none) : insertKV m k v = m ++ [(k, v)] := by
  induction m with
  | nil => simp [insertKV]
  | cons p rest ih =>
    obtain ⟨k', v'⟩ := p
    by_cases h0 : k' = k
    · subst h0; simp [lookupKV] at h
    · simp only [lookupKV, if_neg h0] at h
      simp [insertKV, h0, ih h]

theorem nodupKeys_values_eq (m : List (K × V)) (hm : (m.map Prod.fst).Nodup)
    (k : K) (v1 v2 : V) (h1 : (k, v1) ∈ m) (h2 : (k, v2) ∈ m) : v1 = v2 := by
  induction m with
  | nil => simp at h1
  | cons p rest ih =>
    obtain ⟨k', v'⟩ := p
    simp only [List.map_cons, List.nodup_cons] at hm
    rcases List.mem_cons.mp h1 with e1 | m1 <;> rcases List.mem_cons.mp h2 with e2 | m2
    · rw [Prod.mk.injEq] at e1 e2
      rw [e1.2, e2.2]
    · exfalso
      rw [Prod.mk.injEq] at e1
      exact hm.1 (e1.1 ▸ (List.mem_map_of_mem Prod.fst m2))
    · exfalso
      rw [Prod.mk.injEq] at e2
      exact hm.1 (e2.1 ▸ (List.mem_map_of_mem Prod.fst m1))
    · exact ih hm.2 m1 m2

theorem nodupKeys_insertKV (m : List (K × V)) (k : K) (v : V)
    (hm : (m.map Prod.fst).Nodup) : ((insertKV m k v).map Prod.fst).Nodup := by
  rw [keys_insertKV]
  by_cases h : k ∈ m.map Prod.fst
  · simpa [h] using hm
  · simp only [if_neg h]
    simpa [List.nodup_append, h] using hm

end MapLemmas

/-! ### Lemmas about the stable insertion sort -/

section SortLemmas

variable {α : Type} {le : α → α → Bool} {R : α → α → Prop}

theorem mem_insertBy {x z : α} : ∀ {l : List α}, z ∈ insertBy le x l ↔ z = x ∨ z ∈ l
  | [] => by simp [insertBy]
  | y :: ys => by
    by_cases h : le y x
    · simp only [insertBy, if_pos h, List.mem_cons, mem_insertBy (l := ys)]
      tauto
    · simp [insertBy, h]

theorem pairwise_insertBy (hT : Transitive R)
    (hle : ∀ a b, le a b = true → R a b) (hgt : ∀ a b, le a b = false → R b a)
    {x : α} : ∀ {l : List α}, l.Pairwise R → (insertBy le x l).Pairwise R
  | [], _ => by simp [insertBy]
  | y :: ys, h => by
    simp only [insertBy]
    rcases List.pairwise_cons.mp h with ⟨hy, hys⟩
    by_cases hc : le y x
    · rw [if_pos hc]
      refine List.pairwise_cons.mpr ⟨?_, pairwise_insertBy hT hle hgt hys⟩
      intro z hz
      rcases mem_insertBy.mp hz with rfl | hz'
      · exact hle y z hc
      · exact hy z hz'
    · rw [if_neg hc]
      refine List.pairwise_cons.mpr ⟨?_, h⟩
      intro z hz
      rcases List.mem_cons.mp hz with rfl | hz'
      · exact hgt z x (by simpa using hc)
      · exact hT (hgt y x (by simpa using hc)) (hy z hz')

theorem pairwise_sortBy_aux (hT : Transitive R)
    (hle : ∀ a b, le a b = true → R a b) (hgt : ∀ a b, le a b = false → R b a) :
    ∀ (l acc : List α), acc.Pairwise R →
      (l.foldl (fun a x => insertBy le x a) acc).Pairwise R
  | [], acc, h => h
  | x :: xs, acc, h =>
    pairwise_sortBy_aux hT hle hgt xs (insertBy le x acc)
      (pairwise_insertBy hT hle hgt h)

theorem pairwise_sortBy (hT : Transitive R)
    (hle : ∀ a b, le a b = true → R a b) (hgt : ∀ a b, le a b = false → R b a)
    (l : List α) : (sortBy le l).Pairwise R :=
  pairwise_sortBy_aux hT hle hgt l [] (by simp)

theorem mem_sortBy_aux {b : α} :
    ∀ (l acc : List α), b ∈ acc ∨ b ∈ l →
      b ∈ l.foldl (fun a x => insertBy le x a) acc
  | [], acc, h => by simpa using h.resolve_right (by simp)
  | x :: xs, acc, h => by
    refine mem_sortBy_aux xs (insertBy le x acc) ?_
    rcases h with h | h
    · exact Or.inl (mem_insertBy.mpr (Or.inr h))
    · rcases List.mem_cons.mp h with rfl | h'
      · exact Or.inl (mem_insertBy.mpr (Or.inl rfl))
      · exact Or.inr h'

theorem mem_sortBy {b : α} {l : List α} (h : b ∈ l) : b ∈ sortBy le l :=
  mem_sortBy_aux l [] (Or.inr h)

end SortLemmas

theorem sortKeysDesc_pairwise (eks : List LC) :
    (sortKeysDesc eks).Pairwise (fun a b => b.length ≤ a.length) := by
  refine pairwise_sortBy ?_ ?_ ?_ eks
  · intro a b c h1 h2
    exact le_trans h2 h1
  · intro a b h
    simpa using of_decide_eq_true h
  · intro a b h
    have := of_decide_eq_false h
    omega

theorem mem_sortKeysDesc {b : LC} {eks : List LC} (h : b ∈ eks) :
    b ∈ sortKeysDesc eks := mem_sortBy h

/-! ### Claim C3: longest-key precedence in rule 0 -/

theorem matchExpectedKey_longest :
    ∀ (ekl : List LC) (line b : LC),
      ekl.Pairwise (fun a b => b.length ≤ a.length) → b ∈ ekl →
      (lowerL b).isPrefixOf (lowerL line) = true →
      ∃ k v, matchExpectedKey ekl line = some (k, v) ∧ b.length ≤ k.length
  | [], line, b, _, hb, _ => by simp at hb
  | ek :: rest, line, b, hp, hb, hpre => by
    rcases List.pairwise_cons.mp hp with ⟨hhead, htail⟩
    by_cases hm : (lowerL ek).isPrefixOf (lowerL line) = true
    · refine ⟨ek, dropSeps (stripL (line.drop ek.length)), ?_, ?_⟩
      · simp [matchExpectedKey, hm]
      · rcases List.mem_cons.mp hb with rfl | hbr
        · exact le_refl _
        · exact hhead b hbr
    · have hbr : b ∈ rest := by
        rcases List.mem_cons.mp hb with rfl | hbr
        · exact absurd hpre hm
        · exact hbr
      obtain ⟨k, v, heq, hlen⟩ := matchExpectedKey_longest rest line b htail hbr hpre
      exact ⟨k, v, by simp [matchExpectedKey, hm, heq], hlen⟩

/-- C3: when one expected key is a prefix of another, `extract_key_values`
tries keys longest-first (the sorted list is length-descending), so the
rule-0 match for a line starting with the longer key is never a strictly
shorter key; concretely, for expected keys `["Service", "Service offering"]`
and the line `"Service offering: AWS"`, the value `"AWS"` is assigned to
`"Service offering"` and never to `"Service"`. -/
theorem extract_kv_longest_key_precedence :
    (∀ eks : List LC, (sortKeysDesc eks).Pairwise (fun a b => b.length ≤ a.length)) ∧
    (∀ (eks : List LC) (line b : LC), b ∈ eks →
      (lowerL b).isPrefixOf (lowerL line) = true →
      ∃ k v, matchExpectedKey (sortKeysDesc eks) line = some (k, v) ∧
        b.length ≤ k.length) ∧
    extract_key_values "Service offering: AWS".toList
      ["Service".toList, "Service offering".toList]
      = [("Service offering".toList, "AWS".toList)] :=
  ⟨sortKeysDesc_pairwise,
   fun eks line b hb hpre =>
     matchExpectedKey_longest (sortKeysDesc eks) line b (sortKeysDesc_pairwise eks)
       (mem_sortKeysDesc hb) hpre,
   by decide⟩

theorem extract_kv_longest_key_precedence_witness :
    ∃ k v,
      matchExpectedKey (sortKeysDesc ["Service".toList, "Service offering".toList])
        "Service offering: AWS".toList = some (k, v) ∧
      ("Service offering".toList).length ≤ k.length :=
  extract_kv_longest_key_precedence.2.1
    ["Service".toList, "Service offering".toList]
    "Service offering: AWS".toList "Service offering".toList
    (by decide) (by decide)

/-! ### Claim C7: spans of `parse_cdr_text` -/

theorem spansFrom_mem_shape (total : Nat) :
    ∀ (l : List (Nat × LC)) (s : LC × Nat × Nat), s ∈ spansFrom total l →
      ∃ p h, (p, h) ∈ l ∧ s.2.1 = p + h.length
  | [], s, hs => by simp [spansFrom] at hs
  | (p, h) :: rest, s, hs => by
    simp only [spansFrom, List.mem_cons] at hs
    rcases hs with rfl | hs'
    · exact ⟨p, h, List.mem_cons_self _ _, rfl⟩
    · obtain ⟨p', h', hm, he⟩ := spansFrom_mem_shape total rest s hs'
      exact ⟨p', h', List.mem_cons_of_mem _ hm, he⟩

theorem spansFrom_pairwise (total : Nat) :
    ∀ l : List (Nat × LC), l.Pairwise (fun a b => a.1 ≤ b.1) →
      (spansFrom total l).Pairwise (fun a b => a.2.2 ≤ b.2.1)
  | [], _ => by simp [spansFrom]
  | (p, h) :: rest, hp => by
    rcases List.pairwise_cons.mp hp with ⟨_, htail⟩
    simp only [spansFrom]
    refine List.pairwise_cons.mpr ⟨?_, spansFrom_pairwise total rest htail⟩
    intro s hs
    obtain ⟨q', h', hm, he⟩ := spansFrom_mem_shape total rest s hs
    cases rest with
    | nil => simp at hm
    | cons qh rr =>
      obtain ⟨q, h2⟩ := qh
      show q ≤ s.2.1
      rw [he]
      rcases List.mem_cons.mp hm with heq | hmr
      · have hq : q' = q := by
          have := congrArg Prod.fst heq
          simpa using this
        omega
      · have hle : q ≤ q' := (List.pairwise_cons.mp htail).1 (q', h') hmr
        omega

theorem positions_fold_nodup (t : LC) :
    ∀ (hs : List LC) (m : List (Nat × LC)), (m.map Prod.fst).Nodup →
      ((hs.foldl (fun m h => match findSub t h with
        | some i => insertKV m i h
        | none => m) m).map Prod.fst).Nodup
  | [], _, hm => hm
  | h :: rest, m, hm => by
    simp only [List.foldl_cons]
    cases hf : findSub t h with
    | none => exact positions_fold_nodup t rest m hm
    | some i =>
      exact positions_fold_nodup t rest (insertKV m i h) (nodupKeys_insertKV m i h hm)

theorem positionsList_nodupKeys (t : LC) :
    ((positionsList t).map Prod.fst).Nodup :=
  positions_fold_nodup t HEADING_KEYWORDS [] (by simp)

theorem sortedPositions_pairwise (t : LC) :
    (sortedPositions t).Pairwise (fun a b => a.1 ≤ b.1) := by
  refine pairwise_sortBy ?_ ?_ ?_ (positionsList t)
  · intro a b c h1 h2
    exact le_trans h1 h2
  · intro a b h
    exact of_decide_eq_true h
  · intro a b h
    have := of_decide_eq_false h
    omega

/-- C7: the content spans produced by `parse_cdr_text` — each running from
just after a found label's first occurrence to the next found offset or the
document end — are pairwise non-overlapping (each span ends no later than
any later span starts), and the offset-keyed `positions` map never assigns
two different heading labels to the same offset. -/
theorem parse_cdr_spans_disjoint :
    (∀ t : LC, (cdrSpans t).Pairwise (fun a b => a.2.2 ≤ b.2.1)) ∧
    (∀ (t : LC) (p : Nat) (h1 h2 : LC), (p, h1) ∈ positionsList t →
      (p, h2) ∈ positionsList t → h1 = h2) :=
  ⟨fun t => spansFrom_pairwise t.length (sortedPositions t) (sortedPositions_pairwise t),
   fun t p h1 h2 m1 m2 =>
     nodupKeys_values_eq (positionsList t) (positionsList_nodupKeys t) p h1 h2 m1 m2⟩

theorem parse_cdr_spans_disjoint_witness :
    (cdrSpans "Purpose: x\nAudience: y".toList).Pairwise
      (fun a b => a.2.2 ≤ b.2.1) ∧
    ("Purpose".toList : LC) = "Purpose".toList :=
  ⟨parse_cdr_spans_disjoint.1 "Purpose: x\nAudience: y".toList,
   parse_cdr_spans_disjoint.2 "Purpose: x\nAudience: y".toList 0
     "Purpose".toList "Purpose".toList (by decide) (by decide)⟩

/-! ### Claim C2: the free-text fallback and its synthetic keys -/

theorem digitVal_digitC (n : Nat) (h : n < 10) : digitVal (digitC n) = n := by
  interval_cases n <;> decide

theorem digitsVal_append (xs : LC) (d : Char) :
    digitsVal (xs ++ [d]) = digitsVal xs * 10 + digitVal d := by
  simp [digitsVal, List.foldl_append]

theorem digitsVal_natToDigitsAux :
    ∀ (fuel n : Nat), n < fuel → digitsVal (natToDigitsAux fuel n) = n
  | 0, n, h => by omega
  | fuel + 1, n, h => by
    by_cases h10 : n < 10
    · simp [natToDigitsAux, h10, digitsVal, digitVal_digitC n h10]
    · have hd : n / 10 < fuel := by omega
      simp only [natToDigitsAux, if_neg h10, digitsVal_append,
        digitsVal_natToDigitsAux fuel (n / 10) hd,
        digitVal_digitC (n % 10) (Nat.mod_lt n (by omega))]
      omega

theorem natToStr_inj : Function.Injective natToStr := by
  intro m n h
  have hm := digitsVal_natToDigitsAux (m + 1) m (by omega)
  have hn := digitsVal_natToDigitsAux (n + 1) n (by omega)
  rw [natToStr, natToStr] at h
  rw [← hm, ← hn, h]

theorem textKey_inj : Function.Injective textKey := by
  intro m n h
  exact natToStr_inj (List.append_cancel_left h)

theorem exists_fresh_textKey (res : List (LC × LC)) :
    ∃ i, i < res.length + 1 ∧ containsKey res (textKey i) = false := by
  by_contra hall
  push_neg at hall
  have hsub : ((List.range (res.length + 1)).map textKey) ⊆ res.map Prod.fst := by
    intro x hx
    obtain ⟨i, hi, rfl⟩ := List.mem_map.mp hx
    have hi' := List.mem_range.mp hi
    have := hall i hi'
    have hsome : ¬ lookupKV res (textKey i) = none := by
      simpa [containsKey] using this
    by_contra hmem
    exact hsome ((lookupKV_eq_none_iff res (textKey i)).mpr hmem)
  have hnd : ((List.range (res.length + 1)).map textKey).Nodup :=
    (List.nodup_range _).map textKey_inj
  have hle := (hnd.subperm hsub).length_le
  simp at hle

theorem freshAux_not_contains :
    ∀ (fuel start : Nat) (res : List (LC × LC)),
      (∃ i, start ≤ i ∧ i < start + fuel ∧ containsKey res (textKey i) = false) →
      containsKey res (textKey (freshAux res fuel start)) = false
  | 0, start, res, h => by
    obtain ⟨i, h1, h2, _⟩ := h
    omega
  | fuel + 1, start, res, h => by
    by_cases hc : containsKey res (textKey start) = true
    · simp only [freshAux, hc, if_true]
      refine freshAux_not_contains fuel (start + 1) res ?_
      obtain ⟨i, h1, h2, h3⟩ := h
      have : i ≠ start := fun he => by rw [he] at h3; rw [h3] at hc; cases hc
      exact ⟨i, by omega, by omega, h3⟩
    · simp only [Bool.not_eq_true] at hc
      simp only [freshAux, hc, Bool.false_eq_true, if_false]

theorem freshAux_least :
    ∀ (fuel start : Nat) (res : List (LC × LC)) (j : Nat),
      start ≤ j → j < freshAux res fuel start →
      containsKey res (textKey j) = true
  | 0, start, res, j, h1, h2 => by
    simp only [freshAux] at h2
    omega
  | fuel + 1, start, res, j, h1, h2 => by
    by_cases hc : containsKey res (textKey start) = true
    · simp only [freshAux, hc, if_true] at h2
      by_cases hj : j = start
      · rw [hj]; exact hc
      · exact freshAux_least fuel (start + 1) res j (by omega) h2
    · simp only [Bool.not_eq_true] at hc
      simp only [freshAux, hc, Bool.false_eq_true, if_false] at h2
      omega

theorem freshTextIdx_fresh (res : List (LC × LC)) :
    lookupKV res (textKey (freshTextIdx res)) = none := by
  have h := freshAux_not_contains (res.length + 1) 0 res
    (by
      obtain ⟨i, h1, h2⟩ := exists_fresh_textKey res
      exact ⟨i, by omega, by omega, h2⟩)
  rw [freshTextIdx]
  cases hl : lookupKV res (textKey (freshAux res (res.length + 1) 0)) with
  | none => rfl
  | some v =>
    rw [containsKey, hl] at h
    simp at h

theorem freshTextIdx_least (res : List (LC × LC)) (j : Nat)
    (hj : j < freshTextIdx res) : containsKey res (textKey j) = true :=
  freshAux_least (res.length + 1) 0 res j (Nat.zero_le j) hj

/-- C2 (amended): a line to which no splitting rule and no continuation
stitch applies is stored, never dropped, under the synthetic key
`text_N` for the least index `N` not already present in the result (the
key is fresh, and every smaller index is taken); the claim's further
assertion that no key of `extract_key_values` is ever the empty string
fails — the colon rule yields an empty key for a line starting with
`':'`. -/
theorem extract_kv_fallback_free_text
    (ekl : List LC) (st : KVState) (line : LC)
    (h0 : matchExpectedKey ekl line = none)
    (h1 : splitFirstColon line = none)
    (h2 : gapFind line = none)
    (h3 : rule3Try ekl line = none)
    (h4 : rule4Try line = none)
    (h5 : stitchResult st line = none) :
    processLine ekl st line =
      ⟨st.result ++ [(textKey (freshTextIdx st.result), line)],
       some (textKey (freshTextIdx st.result))⟩ ∧
    lookupKV st.result (textKey (freshTextIdx st.result)) = none ∧
    ∀ j, j < freshTextIdx st.result → containsKey st.result (textKey j) = true := by
  refine ⟨?_, freshTextIdx_fresh st.result, freshTextIdx_least st.result⟩
  rw [processLine, h0, h1, h2, h3, h4, h5]
  show (⟨insertKV st.result (textKey (freshTextIdx st.result)) line,
        some (textKey (freshTextIdx st.result))⟩ : KVState) = _
  rw [insertKV_of_lookup_none st.result _ line (freshTextIdx_fresh st.result)]

theorem extract_kv_fallback_free_text_witness :
    processLine [] ⟨[], none⟩ "x".toList =
      ⟨[] ++ [(textKey (freshTextIdx []), "x".toList)],
       some (textKey (freshTextIdx ([] : List (LC × LC))))⟩ ∧
    lookupKV ([] : List (LC × LC)) (textKey (freshTextIdx [])) = none ∧
    ∀ j, j < freshTextIdx ([] : List (LC × LC)) →
      containsKey ([] : List (LC × LC)) (textKey j) = true :=
  extract_kv_fallback_free_text [] ⟨[], none⟩ "x".toList
    (by decide) (by decide) (by decide) (by decide) (by decide) (by decide)

/-- C2 counterexample: `extract_key_values` can produce the empty string
as a key — the colon rule applied to the line `":x"` stores the value
`"x"` under the key `""`. -/
theorem extract_kv_empty_key_counterexample :
    extract_key_values ":x".toList [] = [(([] : LC), "x".toList)] ∧
    ([] : LC) ∈ (extract_key_values ":x".toList []).map Prod.fst := by
  constructor
  · decide
  · decide

/-! ### Claim C4: email continuation stitching -/

/-- C4: when the active (last-assigned) key holds the value `"jane.doe@"`
and the next line is `"example.com"` — a line no earlier splitting rule
can claim (rule 0 by hypothesis; the line has no colon, no wide gap and
no space) — continuation stitching concatenates with no separator, so the
key's value becomes exactly `"jane.doe@example.com"` and the active key
is unchanged. -/
theorem extract_kv_email_stitch
    (ekl : List LC) (st : KVState) (k : LC)
    (hlk : st.lastKey = some k)
    (hk : k ≠ [])
    (hprev : lookupKV st.result k = some "jane.doe@".toList)
    (h0 : matchExpectedKey ekl "example.com".toList = none) :
    processLine ekl st "example.com".toList =
      ⟨insertKV st.result k "jane.doe@example.com".toList, st.lastKey⟩ ∧
    lookupKV (processLine ekl st "example.com".toList).result k =
      some "jane.doe@example.com".toList := by
  have hke : k.isEmpty = false := by
    cases k
    · exact absurd rfl hk
    · rfl
  have hcolon : splitFirstColon "example.com".toList = none := by decide
  have hgap : gapFind "example.com".toList = none := by decide
  have hsp : containsChar "example.com".toList ' ' = false := by decide
  have h3 : rule3Try ekl "example.com".toList = none := by
    rw [rule3Try, hsp]
    simp
  have h4 : rule4Try "example.com".toList = none := by decide
  have e1 : ("jane.doe@".toList).isEmpty = false := by decide
  have e2 : (containsChar "jane.doe@".toList '@' && emailFragEnd "jane.doe@".toList)
      = false := by decide
  have e3 : (containsChar "jane.doe@".toList '@' &&
      domainLine (stripL "example.com".toList)) = true := by decide
  have e4 : "jane.doe@".toList ++ stripL "example.com".toList
      = "jane.doe@example.com".toList := by decide
  have hst : stitchResult st "example.com".toList =
      some (insertKV st.result k "jane.doe@example.com".toList) := by
    rw [stitchResult, hlk]
    show (if k.isEmpty then none
      else match lookupKV st.result k with
        | none => none
        | some prev =>
          if prev.isEmpty then some (insertKV st.result k "example.com".toList)
          else if containsChar prev '@' && emailFragEnd prev then
            some (insertKV st.result k (prev ++ "example.com".toList))
          else if containsChar prev '@' && domainLine (stripL "example.com".toList) then
            some (insertKV st.result k (prev ++ stripL "example.com".toList))
          else if containsChar "example.com".toList '|' ||
              (!containsChar "example.com".toList ':' &&
                !(gapFind "example.com".toList).isSome) then
            some (insertKV st.result k (prev ++ ' ' :: "example.com".toList))
          else none) = some (insertKV st.result k "jane.doe@example.com".toList)
    rw [hke, hprev]
    simp only [Bool.false_eq_true, if_false, e1, e2, e3, if_true, e4]
  have hmain : processLine ekl st "example.com".toList =
      ⟨insertKV st.result k "jane.doe@example.com".toList, st.lastKey⟩ := by
    rw [processLine, h0, hcolon, hgap, h3, h4, hst]
  refine ⟨hmain, ?_⟩
  rw [hmain]
  exact lookupKV_insertKV_self st.result k "jane.doe@example.com".toList

theorem extract_kv_email_stitch_witness :
    processLine [] ⟨[("Email".toList, "jane.doe@".toList)], some "Email".toList⟩
        "example.com".toList =
      ⟨insertKV [("Email".toList, "jane.doe@".toList)] "Email".toList
        "jane.doe@example.com".toList, some "Email".toList⟩ ∧
    lookupKV (processLine []
        ⟨[("Email".toList, "jane.doe@".toList)], some "Email".toList⟩
        "example.com".toList).result "Email".toList =
      some "jane.doe@example.com".toList :=
  extract_kv_email_stitch []
    ⟨[("Email".toList, "jane.doe@".toList)], some "Email".toList⟩
    "Email".toList rfl (by decide) (by decide) (by decide)

/-! ### Claim C9: the anchor-path collection loop is bounded -/

theorem collectAux_length_le :
    ∀ (lines : List LC) (blank : Nat) (acc : List LC),
      acc.length ≤ 200 → (collectAux lines blank acc).length ≤ 201
  | [], _, acc, h => by
    simp only [collectAux]
    omega
  | ln :: rest, blank, acc, h => by
    simp only [collectAux]
    by_cases hb : (stripL ln).isEmpty
    · rw [if_pos hb]
      by_cases h2 : 2 ≤ blank + 1
      · rw [if_pos h2]
        omega
      · rw [if_neg h2]
        exact collectAux_length_le rest (blank + 1) acc h
    · rw [if_neg hb]
      by_cases h200 : 200 < (acc ++ [ln]).length
      · rw [if_pos h200]
        simp only [List.length_append, List.length_singleton]
        omega
      · rw [if_neg h200]
        refine collectAux_length_le rest 0 (acc ++ [ln]) ?_
        simp only [List.length_append, List.length_singleton] at h200 ⊢
        omega

theorem collectTake_length_le (lines : List LC) :
    (collectTake lines).length ≤ 201 :=
  collectAux_length_le lines 0 [] (by simp)

/-- C9: the line-collection loop after the anchor heading always yields a
block of at most 201 lines, a fixed bound independent of the input, and
two consecutive blank lines stop the collection immediately; hence the
selected block's line count is bounded regardless of input length. -/
theorem extract_apm_block_bounded :
    (∀ lines : List LC, (collectTake lines).length ≤ 201) ∧
    (∀ (l1 l2 : LC) (rest acc : List LC), stripL l1 = [] → stripL l2 = [] →
      collectAux (l1 :: l2 :: rest) 0 acc = acc) ∧
    (∀ (t rest : LC), findAnchor t = some rest →
      (collectTake (splitlinesP rest)).length ≤ 201) := by
  refine ⟨collectTake_length_le, ?_, fun t rest _ => collectTake_length_le _⟩
  intro l1 l2 rest acc h1 h2
  simp [collectAux, h1, h2]

theorem extract_apm_block_bounded_witness :
    ((collectTake ["a".toList]).length ≤ 201) ∧
    (collectAux [([] : LC), ([] : LC)] 0 [] = []) ∧
    ((collectTake (splitlinesP "\nA".toList)).length ≤ 201) :=
  ⟨extract_apm_block_bounded.1 ["a".toList],
   extract_apm_block_bounded.2.1 [] [] [] [] (by decide) (by decide),
   extract_apm_block_bounded.2.2
     "Application Portfolio Management Details\nA".toList "\nA".toList (by decide)⟩

/-! ### Claims C10 and C1: the recovery frame and the canonical key set -/

theorem findAOKey_norm {m : List (LC × LC)} {ao : LC}
    (h : findAOKey m = some ao) : normKey ao = "applicationowner".toList := by
  have := List.find?_some h
  simpa using this

theorem findAOKey_mem {m : List (LC × LC)} {ao : LC}
    (h : findAOKey m = some ao) : ao ∈ m.map Prod.fst :=
  List.mem_of_find?_eq_some h

theorem extract_apm_eq_recovery (text : LC) (htext : text ≠ []) :
    extract_apm_from_text text = applyRecovery (blockUsed text) (projOf text) := by
  rw [extract_apm_from_text, if_neg]
  simpa [List.isEmpty_iff] using htext

/-- C10: the targeted email-recovery step modifies at most the
`"Application Owner"` entry — the value of any key with a different
normalized form is unchanged — and a non-empty projected owner value is
never replaced; the pipeline applies this recovery to the projection
result, using only the selected (URL-stripped) block. -/
theorem extract_apm_recovery_frame :
    (∀ (blk : LC) (m : List (LC × LC)) (k : LC),
      normKey k ≠ "applicationowner".toList →
      lookupKV (applyRecovery blk m) k = lookupKV m k) ∧
    (∀ (blk : LC) (m : List (LC × LC)) (ao v : LC),
      findAOKey m = some ao → lookupKV m ao = some v → v ≠ [] →
      applyRecovery blk m = m) ∧
    (∀ text : LC, text ≠ [] →
      extract_apm_from_text text = applyRecovery (blockUsed text) (projOf text)) := by
  refine ⟨?_, ?_, ?_⟩
  · intro blk m k hk
    rw [applyRecovery]
    split
    · rfl
    · rename_i ao hao
      have hne : k ≠ ao := fun he => hk (he ▸ findAOKey_norm hao)
      split
      · rename_i v _
        split
        · rfl
        · dsimp only
          split
          · rfl
          · exact lookupKV_insertKV_ne m ao k _ hne
      · dsimp only
        split
        · rfl
        · exact lookupKV_insertKV_ne m ao k _ hne
  · intro blk m ao v hao hv hne
    have hemp : v.isEmpty = false := by
      cases v
      · exact absurd rfl hne
      · rfl
    rw [applyRecovery, hao]
    dsimp only
    rw [hv]
    dsimp only
    rw [hemp]
    rfl
  · exact extract_apm_eq_recovery

theorem extract_apm_recovery_frame_witness :
    (lookupKV (applyRecovery [] [("A".toList, "b".toList)]) "A".toList =
      lookupKV [("A".toList, "b".toList)] "A".toList) ∧
    (applyRecovery [] [("Application Owner".toList, "x".toList)] =
      [("Application Owner".toList, "x".toList)]) ∧
    (extract_apm_from_text "x".toList =
      applyRecovery (blockUsed "x".toList) (projOf "x".toList)) :=
  ⟨extract_apm_recovery_frame.1 [] [("A".toList, "b".toList)] "A".toList (by decide),
   extract_apm_recovery_frame.2.1 [] [("Application Owner".toList, "x".toList)]
     "Application Owner".toList "x".toList (by decide) (by decide) (by decide),
   extract_apm_recovery_frame.2.2 "x".toList (by decide)⟩

theorem lookupNormLast_mem :
    ∀ (m : List (LC × LC)) (nk v : LC), lookupNormLast m nk = some v →
      ∃ q ∈ m, v = q.2
  | [], _, _, h => by simp [lookupNormLast] at h
  | (k0, v0) :: rest, nk, v, h => by
    rw [lookupNormLast] at h
    cases hr : lookupNormLast rest nk with
    | some r =>
      rw [hr] at h
      obtain ⟨q, hq, he⟩ := lookupNormLast_mem rest nk v (by rw [hr, ← h])
      exact ⟨q, List.mem_cons_of_mem _ hq, he⟩
    | none =>
      rw [hr] at h
      by_cases hn : normKey k0 = nk
      · rw [if_pos hn] at h
        refine ⟨(k0, v0), List.mem_cons_self _ _, ?_⟩
        have := Option.some.inj h
        exact this.symm
      · rw [if_neg hn] at h
        cases h

theorem projectFinal_keys (eks : List LC) (m : List (LC × LC)) :
    (projectFinal eks m).map Prod.fst = eks := by
  rw [projectFinal, List.map_map]
  show eks.map (fun key => key) = eks
  exact List.map_id eks

theorem keys_applyRecovery (blk : LC) (m : List (LC × LC)) :
    (applyRecovery blk m).map Prod.fst = m.map Prod.fst := by
  rw [applyRecovery]
  split
  · rfl
  · rename_i ao hao
    split
    · rename_i v _
      split
      · rfl
      · dsimp only
        split
        · rfl
        · exact keys_insertKV_mem m ao _ (findAOKey_mem hao)
    · dsimp only
      split
      · rfl
      · exact keys_insertKV_mem m ao _ (findAOKey_mem hao)

/-- C1 (amended): for every non-empty input the keys of
`extract_apm_from_text` are exactly the expected keys, in the
expected-key-set order; the projection stage yields, for every
expected-key set, exactly that key set in order, with each value either
an extracted value or the empty string.  The claim's further assertion
about the empty input fails: the source returns the empty map for `""`,
not the canonical all-empty map. -/
theorem extract_apm_keys_exact :
    (∀ text : LC, text ≠ [] →
      (extract_apm_from_text text).map Prod.fst = expectedKeysAPM) ∧
    (∀ (eks : List LC) (m : List (LC × LC)),
      (projectFinal eks m).map Prod.fst = eks) ∧
    (∀ (eks : List LC) (m : List (LC × LC)) (p : LC × LC),
      p ∈ projectFinal eks m → p.2 = [] ∨ ∃ q ∈ m, p.2 = q.2) := by
  refine ⟨?_, projectFinal_keys, ?_⟩
  · intro text htext
    rw [extract_apm_eq_recovery text htext, keys_applyRecovery]
    exact projectFinal_keys _ _
  · intro eks m p hp
    rw [projectFinal] at hp
    obtain ⟨key, _, rfl⟩ := List.mem_map.mp hp
    cases hl : lookupNormLast m (normKey key) with
    | none => left; simp [hl]
    | some v =>
      right
      obtain ⟨q, hq, he⟩ := lookupNormLast_mem m (normKey key) v hl
      exact ⟨q, hq, by simpa [hl] using he⟩

theorem extract_apm_keys_exact_witness :
    (extract_apm_from_text "x".toList).map Prod.fst = expectedKeysAPM :=
  extract_apm_keys_exact.1 "x".toList (by decide)

/-- C1 counterexample: for the empty-string input, `extract_apm_from_text`
returns the empty map, not the canonical map with all values empty. -/
theorem extract_apm_empty_counterexample :
    extract_apm_from_text [] = [] ∧
    extract_apm_from_text [] ≠ expectedKeysAPM.map (fun k => (k, ([] : LC))) := by
  constructor
  · rfl
  · decide

/-! ### Claim C6: the no-heading fallback of `parse_cdr_text` -/

theorem positions_fold_nil (t : LC) :
    ∀ (hs : List LC) (m : List (Nat × LC)), (∀ h ∈ hs, findSub t h = none) →
      (hs.foldl (fun m h => match findSub t h with
        | some i => insertKV m i h
        | none => m) m) = m
  | [], m, _ => rfl
  | h :: rest, m, hno => by
    simp only [List.foldl_cons]
    rw [hno h (List.mem_cons_self _ _)]
    exact positions_fold_nil t rest m (fun h' hm => hno h' (List.mem_cons_of_mem _ hm))

theorem positionsList_nil (t : LC)
    (hno : ∀ h ∈ HEADING_KEYWORDS, findSub t h = none) : positionsList t = [] :=
  positions_fold_nil t HEADING_KEYWORDS [] hno

/-- C6 (amended): for every non-empty input text in which none of the
known heading labels occurs literally (in the CR-normalized text),
`parse_cdr_text` returns the single-entry map `{"body": p}` with `p` the
first non-empty blank-line-separated paragraph, or the whole text when no
paragraph split is possible.  The claim's "every input" fails at the
empty string, for which the source returns the empty map. -/
theorem parse_cdr_no_heading_fallback
    (t : LC) (ht : t ≠ [])
    (hno : ∀ h ∈ HEADING_KEYWORDS, findSub (removeCR t) h = none) :
    parse_cdr_text t = [("body".toList, bodyFallback (removeCR t))] := by
  rw [parse_cdr_text, if_neg (by simpa [List.isEmpty_iff] using ht)]
  dsimp only
  rw [positionsList_nil (removeCR t) hno]
  rfl

theorem parse_cdr_no_heading_fallback_witness :
    parse_cdr_text "just a lone paragraph.".toList
      = [("body".toList, "just a lone paragraph.".toList)] := by
  rw [parse_cdr_no_heading_fallback "just a lone paragraph.".toList
    (by decide) (by decide)]
  decide

/-- C6 counterexample: the empty input contains no heading label, yet
`parse_cdr_text` returns the empty map, not a single-entry `"body"` map. -/
theorem parse_cdr_empty_counterexample :
    parse_cdr_text [] = [] ∧
    parse_cdr_text [] ≠ [("body".toList, ([] : LC))] :=
  ⟨rfl, by decide⟩

/-! ### Claim C5: scoped owner-email recovery -/

/-- C5: when the projected `"Application Owner"` value is empty, the
reconciler fills it from `find_owner_email_in_block` applied to the
selected block only (first an email in the bounded window after an
owner-label line, else the first email in the block); in the concrete
scenario the owner field becomes `"bob@corp.io"`, while the email
`"evil@bad.com"`, present in the document but only outside the selected
block, is never used. -/
theorem extract_apm_owner_recovery :
    (∀ (blk : LC) (m : List (LC × LC)) (ao : LC),
      findAOKey m = some ao → lookupKV m ao = some [] →
      lookupKV (applyRecovery blk m) ao =
        (if (find_owner_email_in_block blk 20).isEmpty then some []
         else some (find_owner_email_in_block blk 20))) ∧
    lookupKV (extract_apm_from_text ownerScenario) "Application Owner".toList =
      some "bob@corp.io".toList ∧
    containsSub ownerScenario "evil@bad.com".toList = true ∧
    containsSub (blockUsed ownerScenario) "evil@bad.com".toList = false := by
  refine ⟨?_, by decide, by decide, by decide⟩
  intro blk m ao hao hv
  rw [applyRecovery, hao]
  dsimp only
  rw [hv]
  dsimp only
  by_cases he : (find_owner_email_in_block blk 20).isEmpty
  · rw [if_pos he, if_pos he]
    exact hv
  · rw [if_neg he, if_neg he]
    exact lookupKV_insertKV_self m ao _

theorem extract_apm_owner_recovery_witness :
    lookupKV (applyRecovery [] [("Application Owner".toList, ([] : LC))])
        "Application Owner".toList =
      (if (find_owner_email_in_block [] 20).isEmpty then some ([] : LC)
       else some (find_owner_email_in_block [] 20)) :=
  extract_apm_owner_recovery.1 [] [("Application Owner".toList, [])]
    "Application Owner".toList (by decide) (by decide)

/-! ### Claim C8: URL stripping -/

theorem dropWhile_head_not (p : Char → Bool) :
    ∀ l : LC, l.dropWhile p = [] ∨ ∃ w t, l.dropWhile p = w :: t ∧ p w = false
  | [] => Or.inl rfl
  | c :: cs => by
    rw [List.dropWhile_cons]
    by_cases hc : p c = true
    · rw [if_pos hc]
      exact dropWhile_head_not p cs
    · rw [if_neg hc]
      exact Or.inr ⟨c, cs, rfl, by simpa using hc⟩

theorem takeWhile_ne_nil_head (p : Char → Bool) (l : LC)
    (h : (l.takeWhile p).isEmpty = false) :
    ∃ d t, l = d :: t ∧ p d = true := by
  cases l with
  | nil => simp [List.takeWhile_nil] at h
  | cons c cs =>
    by_cases hc : p c = true
    · exact ⟨c, cs, rfl, hc⟩
    · rw [List.takeWhile_cons, if_neg hc] at h
      simp at h

theorem drop_takeWhileLen (p : Char → Bool) :
    ∀ x : LC, x.drop ((x.takeWhile p).length) = x.dropWhile p
  | [] => rfl
  | c :: cs => by
    by_cases hc : p c = true
    · rw [List.takeWhile_cons, if_pos hc, List.dropWhile_cons, if_pos hc]
      show cs.drop ((cs.takeWhile p).length) = cs.dropWhile p
      exact drop_takeWhileLen p cs
    · rw [List.takeWhile_cons, if_neg hc, List.dropWhile_cons, if_neg hc]
      rfl

theorem mem_of_getElem?_eq_some {α : Type} {a : α} :
    ∀ {l : List α} {n : Nat}, l[n]? = some a → a ∈ l
  | [], n, h => by simp at h
  | b :: bs, 0, h => by
    have : b = a := by simpa using h
    rw [this]
    exact List.mem_cons_self _ _
  | b :: bs, n + 1, h =>
    List.mem_cons_of_mem _ (mem_of_getElem?_eq_some (by simpa using h))

theorem httpMatch_head {s : LC} {n : Nat} (h : httpMatch s = some n) :
    ∃ t, s = 'h' :: t := by
  rw [httpMatch] at h
  by_cases h1 : ("https://".toList).isPrefixOf s = true
  · obtain ⟨r, hr⟩ := List.isPrefixOf_iff_prefix.mp h1
    exact ⟨"ttps://".toList ++ r, by rw [← hr]; rfl⟩
  · rw [if_neg h1] at h
    by_cases h2 : ("http://".toList).isPrefixOf s = true
    · obtain ⟨r, hr⟩ := List.isPrefixOf_iff_prefix.mp h2
      exact ⟨"ttp://".toList ++ r, by rw [← hr]; rfl⟩
    · rw [if_neg h2] at h
      cases h

theorem httpMatch_pos {s : LC} {n : Nat} (h : httpMatch s = some n) : 1 ≤ n := by
  rw [httpMatch] at h
  by_cases h1 : ("https://".toList).isPrefixOf s = true
  · rw [if_pos h1] at h
    by_cases hrun : ((s.drop 8).takeWhile (fun c => !isSpaceC c)).isEmpty = true
    · rw [if_pos hrun] at h
      cases h
    · rw [if_neg hrun] at h
      have := Option.some.inj h
      omega
  · rw [if_neg h1] at h
    by_cases h2 : ("http://".toList).isPrefixOf s = true
    · rw [if_pos h2] at h
      by_cases hrun : ((s.drop 7).takeWhile (fun c => !isSpaceC c)).isEmpty = true
      · rw [if_pos hrun] at h
        cases h
      · rw [if_neg hrun] at h
        have := Option.some.inj h
        omega
    · rw [if_neg h2] at h
      cases h

theorem httpMatch_drop {s : LC} {n : Nat} (h : httpMatch s = some n) :
    s.drop n = [] ∨ ∃ w t, s.drop n = w :: t ∧ isSpaceC w = true := by
  have hconv : ∀ (x : LC), x.dropWhile (fun c => !isSpaceC c) = [] ∨
      ∃ w t, x.dropWhile (fun c => !isSpaceC c) = w :: t ∧ isSpaceC w = true := by
    intro x
    rcases dropWhile_head_not (fun c => !isSpaceC c) x with hx | ⟨w, t, hw, hp⟩
    · exact Or.inl hx
    · refine Or.inr ⟨w, t, hw, ?_⟩
      cases hsw : isSpaceC w
      · rw [hsw] at hp
        cases hp
      · rfl
  rw [httpMatch] at h
  by_cases h1 : ("https://".toList).isPrefixOf s = true
  · rw [if_pos h1] at h
    by_cases hrun : ((s.drop 8).takeWhile (fun c => !isSpaceC c)).isEmpty = true
    · rw [if_pos hrun] at h
      cases h
    · rw [if_neg hrun] at h
      have hn := Option.some.inj h
      rw [← hn, ← List.drop_drop, drop_takeWhileLen]
      exact hconv (s.drop 8)
  · rw [if_neg h1] at h
    by_cases h2 : ("http://".toList).isPrefixOf s = true
    · rw [if_pos h2] at h
      by_cases hrun : ((s.drop 7).takeWhile (fun c => !isSpaceC c)).isEmpty = true
      · rw [if_pos hrun] at h
        cases h
      · rw [if_neg hrun] at h
        have hn := Option.some.inj h
        rw [← hn, ← List.drop_drop, drop_takeWhileLen]
        exact hconv (s.drop 7)
    · rw [if_neg h2] at h
      cases h

theorem stripURLsAux_nil (fuel : Nat) : stripURLsAux fuel [] = [] := by
  cases fuel <;> rfl

theorem httpMatch_none_of_space {w : Char} {t : LC} (hw : isSpaceC w = true) :
    httpMatch (w :: t) = none := by
  cases hm : httpMatch (w :: t) with
  | none => rfl
  | some n =>
    obtain ⟨t', ht'⟩ := httpMatch_head hm
    have hwh : w = 'h' := (List.cons.inj ht').1
    rw [hwh] at hw
    exact absurd hw (by decide)

theorem stripURLsAux_space_head (fuel : Nat) {w : Char} (t : LC)
    (hw : isSpaceC w = true) :
    ∃ t', stripURLsAux fuel (w :: t) = w :: t' := by
  cases fuel with
  | zero => exact ⟨t, rfl⟩
  | succ f =>
    refine ⟨stripURLsAux f t, ?_⟩
    show (match httpMatch (w :: t) with
      | some n => stripURLsAux f ((w :: t).drop n)
      | none => w :: stripURLsAux f t) = w :: stripURLsAux f t
    rw [httpMatch_none_of_space hw]

theorem stripURLsAux_cons_none {fuel : Nat} {c : Char} {cs : LC}
    (hm : httpMatch (c :: cs) = none) :
    stripURLsAux (fuel + 1) (c :: cs) = c :: stripURLsAux fuel cs := by
  show (match httpMatch (c :: cs) with
    | some n => stripURLsAux fuel ((c :: cs).drop n)
    | none => c :: stripURLsAux fuel cs) = c :: stripURLsAux fuel cs
  rw [hm]

theorem stripURLsAux_cons_some {fuel : Nat} {c : Char} {cs : LC} {n : Nat}
    (hm : httpMatch (c :: cs) = some n) :
    stripURLsAux (fuel + 1) (c :: cs) = stripURLsAux fuel ((c :: cs).drop n) := by
  show (match httpMatch (c :: cs) with
    | some n => stripURLsAux fuel ((c :: cs).drop n)
    | none => c :: stripURLsAux fuel cs) = stripURLsAux fuel ((c :: cs).drop n)
  rw [hm]

theorem stripURLsAux_take_cases :
    ∀ (fuel : Nat) (s : LC) (k : Nat), s.length ≤ fuel →
      ((stripURLsAux fuel s).take k = s.take k ∨
       (stripURLsAux fuel s).length < k ∨
       ∃ j, j < k ∧ ∃ w, (stripURLsAux fuel s)[j]? = some w ∧ isSpaceC w = true)
  | fuel, [], k, _ => by
    rw [stripURLsAux_nil]
    exact Or.inl rfl
  | 0, c :: cs, k, h => by simp at h
  | fuel + 1, c :: cs, k, h => by
    have hlen : cs.length ≤ fuel := by
      simp only [List.length_cons] at h
      omega
    cases hm : httpMatch (c :: cs) with
    | none =>
      rw [stripURLsAux_cons_none hm]
      cases k with
      | zero => exact Or.inl rfl
      | succ j =>
        rcases stripURLsAux_take_cases fuel cs j hlen with he | hl | ⟨i, hi, w, hw, hsw⟩
        · left
          rw [List.take_succ_cons, List.take_succ_cons, he]
        · right; left
          simp only [List.length_cons]
          omega
        · right; right
          exact ⟨i + 1, by omega, w, by simpa using hw, hsw⟩
    | some n =>
      rw [stripURLsAux_cons_some hm]
      rcases httpMatch_drop hm with hr | ⟨w, t, hr, hsw⟩
      · rw [hr, stripURLsAux_nil]
        cases k with
        | zero => exact Or.inl rfl
        | succ j =>
          right; left
          simp
      · rw [hr]
        obtain ⟨t', ht'⟩ := stripURLsAux_space_head fuel t hsw
        rw [ht']
        cases k with
        | zero => exact Or.inl rfl
        | succ j =>
          right; right
          exact ⟨0, by omega, w, by simp, hsw⟩

theorem stripped_take_eq {X : LC} {d : Char} {t : LC} :
    (X ++ d :: t).take (X.length + 1) = X ++ [d] := by
  rw [show X ++ d :: t = (X ++ [d]) ++ t by simp]
  rw [show X.length + 1 = (X ++ [d]).length by simp]
  exact List.take_left _ _

theorem stripped_decomp (fuel : Nat) (cs : LC) (hlen : cs.length ≤ fuel)
    (X : LC) (hX : ∀ w ∈ X, isSpaceC w = false)
    (d : Char) (hd : isSpaceC d = false) (t : LC)
    (hR : stripURLsAux fuel cs = X ++ d :: t) :
    ∃ t2, cs = X ++ d :: t2 := by
  rcases stripURLsAux_take_cases fuel cs (X.length + 1) hlen with he | hl | ⟨j, hj, w, hw, hsw⟩
  · have hcs := (List.take_append_drop (X.length + 1) cs).symm
    rw [← he, hR, stripped_take_eq] at hcs
    exact ⟨cs.drop (X.length + 1), hcs.trans (by simp)⟩
  · exfalso
    rw [hR] at hl
    simp only [List.length_append, List.length_cons] at hl
    omega
  · exfalso
    have h8 : ((stripURLsAux fuel cs).take (X.length + 1))[j]? = some w := by
      rw [List.getElem?_take, if_pos hj]
      exact hw
    rw [hR, stripped_take_eq] at h8
    have hmem : w ∈ X ++ [d] := mem_of_getElem?_eq_some h8
    rcases List.mem_append.mp hmem with hx | hd1
    · rw [hX w hx] at hsw
      cases hsw
    · have hwd : w = d := by simpa using hd1
      rw [hwd, hd] at hsw
      cases hsw

theorem httpMatch_stripped_none
    (fuel : Nat) (c : Char) (cs : LC) (hlen : cs.length ≤ fuel)
    (hm : httpMatch (c :: cs) = none) :
    httpMatch (c :: stripURLsAux fuel cs) = none := by
  cases hm2 : httpMatch (c :: stripURLsAux fuel cs) with
  | none => rfl
  | some n =>
    exfalso
    rw [httpMatch] at hm2
    by_cases h1 : ("https://".toList).isPrefixOf (c :: stripURLsAux fuel cs) = true
    · rw [if_pos h1] at hm2
      by_cases hrun : (((c :: stripURLsAux fuel cs).drop 8).takeWhile
          (fun x => !isSpaceC x)).isEmpty = true
      · rw [if_pos hrun] at hm2
        cases hm2
      · obtain ⟨r, hr⟩ := List.isPrefixOf_iff_prefix.mp h1
        have hr' : 'h' :: ("ttps://".toList ++ r) = c :: stripURLsAux fuel cs := hr
        have hc : 'h' = c := (List.cons.inj hr').1
        have hRr : "ttps://".toList ++ r = stripURLsAux fuel cs := (List.cons.inj hr').2
        have hdrop8 : (c :: stripURLsAux fuel cs).drop 8 = r := by
          show (stripURLsAux fuel cs).drop 7 = r
          rw [← hRr]
          exact List.drop_left' (by decide)
        rw [hdrop8] at hrun
        have hrun' : ((r.takeWhile (fun x => !isSpaceC x)).isEmpty) = false := by
          cases he : (r.takeWhile (fun x => !isSpaceC x)).isEmpty
          · rfl
          · exact absurd he hrun
        obtain ⟨d, t2, hrd, hpd⟩ :=
          takeWhile_ne_nil_head (fun x => !isSpaceC x) r hrun' 
        have hpd' : (!isSpaceC d) = true := hpd
        have hd : isSpaceC d = false := by
          cases hsd : isSpaceC d
          · rfl
          · rw [hsd] at hpd'
            simp at hpd'
        obtain ⟨t3, hcs⟩ := stripped_decomp fuel cs hlen "ttps://".toList (by decide)
          d hd t2 (by rw [← hRr, hrd])
        rw [httpMatch] at hm
        have hpre : ("https://".toList).isPrefixOf (c :: cs) = true := by
          apply List.isPrefixOf_iff_prefix.mpr
          refine ⟨d :: t3, ?_⟩
          rw [← hc, hcs]
          rfl
        rw [if_pos hpre] at hm
        have hdrop2 : (c :: cs).drop 8 = d :: t3 := by
          show cs.drop 7 = d :: t3
          rw [hcs]
          exact List.drop_left' (by decide)
        rw [hdrop2] at hm
        rw [List.takeWhile_cons, if_pos hpd'] at hm
        rw [if_neg (by simp)] at hm
        cases hm
    · rw [if_neg h1] at hm2
      by_cases h2 : ("http://".toList).isPrefixOf (c :: stripURLsAux fuel cs) = true
      · rw [if_pos h2] at hm2
        by_cases hrun : (((c :: stripURLsAux fuel cs).drop 7).takeWhile
            (fun x => !isSpaceC x)).isEmpty = true
        · rw [if_pos hrun] at hm2
          cases hm2
        · obtain ⟨r, hr⟩ := List.isPrefixOf_iff_prefix.mp h2
          have hr' : 'h' :: ("ttp://".toList ++ r) = c :: stripURLsAux fuel cs := hr
          have hc : 'h' = c := (List.cons.inj hr').1
          have hRr : "ttp://".toList ++ r = stripURLsAux fuel cs := (List.cons.inj hr').2
          have hdrop7 : (c :: stripURLsAux fuel cs).drop 7 = r := by
            show (stripURLsAux fuel cs).drop 6 = r
            rw [← hRr]
            exact List.drop_left' (by decide)
          rw [hdrop7] at hrun
          have hrun' : ((r.takeWhile (fun x => !isSpaceC x)).isEmpty) = false := by
            cases he : (r.takeWhile (fun x => !isSpaceC x)).isEmpty
            · rfl
            · exact absurd he hrun
          obtain ⟨d, t2, hrd, hpd⟩ :=
            takeWhile_ne_nil_head (fun x => !isSpaceC x) r hrun' 
          have hpd' : (!isSpaceC d) = true := hpd
          have hd : isSpaceC d = false := by
            cases hsd : isSpaceC d
            · rfl
            · rw [hsd] at hpd'
              simp at hpd'
          obtain ⟨t3, hcs⟩ := stripped_decomp fuel cs hlen "ttp://".toList (by decide)
            d hd t2 (by rw [← hRr, hrd])
          rw [httpMatch] at hm
          have h1' : ("https://".toList).isPrefixOf (c :: cs) = false := by
            cases htry : ("https://".toList).isPrefixOf (c :: cs)
            · rfl
            · exfalso
              obtain ⟨r2, hr2⟩ := List.isPrefixOf_iff_prefix.mp htry
              have hchain : "https://".toList ++ r2 = 'h' :: ("ttp://".toList ++ d :: t3) := by
                rw [hr2, ← hc, hcs]
              have h4 : (some 's' : Option Char) = some ':' :=
                congrArg (fun l : LC => (l.drop 4).head?) hchain
              exact absurd (Option.some.inj h4) (by decide)
          rw [if_neg (by rw [h1']; decide)] at hm
          have hpre : ("http://".toList).isPrefixOf (c :: cs) = true := by
            apply List.isPrefixOf_iff_prefix.mpr
            refine ⟨d :: t3, ?_⟩
            rw [← hc, hcs]
            rfl
          rw [if_pos hpre] at hm
          have hdrop2 : (c :: cs).drop 7 = d :: t3 := by
            show cs.drop 6 = d :: t3
            rw [hcs]
            exact List.drop_left' (by decide)
          rw [hdrop2] at hm
          rw [List.takeWhile_cons, if_pos hpd'] at hm
          rw [if_neg (by simp)] at hm
          cases hm
      · rw [if_neg h2] at hm2
        cases hm2

theorem stripURLsAux_noURL :
    ∀ (fuel : Nat) (s : LC), s.length ≤ fuel → hasURL (stripURLsAux fuel s) = false
  | fuel, [], _ => by
    rw [stripURLsAux_nil]
    rfl
  | 0, c :: cs, h => by simp at h
  | fuel + 1, c :: cs, h => by
    have hlen : cs.length ≤ fuel := by
      simp only [List.length_cons] at h
      omega
    cases hm : httpMatch (c :: cs) with
    | some n =>
      rw [stripURLsAux_cons_some hm]
      refine stripURLsAux_noURL fuel ((c :: cs).drop n) ?_
      have h1 := httpMatch_pos hm
      rw [List.length_drop]
      simp only [List.length_cons] at h ⊢
      omega
    | none =>
      rw [stripURLsAux_cons_none hm]
      rw [hasURL]
      rw [httpMatch_stripped_none fuel c cs hlen hm]
      rw [stripURLsAux_noURL fuel cs hlen]
      rfl

/-- C8 (amended): `extract_apm_from_text` strips every URL-looking
substring from the selected block before key-value extraction, so the
block handed to the extractor never contains `http://` or `https://`
followed by a non-space character; the claim's further consequence that
no captured value can contain such a URL fails, since continuation
stitching can reassemble one from fragments that are not URL-looking. -/
theorem extract_apm_url_strip :
    (∀ s : LC, hasURL (stripURLs s) = false) ∧
    (∀ text : LC, hasURL (blockUsed text) = false) ∧
    (∀ text : LC, blockUsed text = stripURLs (blockOf (removeCR text))) :=
  ⟨fun s => stripURLsAux_noURL s.length s (le_refl _),
   fun _ => stripURLsAux_noURL _ _ (le_refl _),
   fun _ => rfl⟩

/-- C8 counterexample: the selected block contains
`"See https://internal/doc for details"`, but continuation stitching
reassembles the URL, so the final `"MIO"` value contains
`"https://internal/doc"`. -/
theorem extract_apm_url_leak_counterexample :
    containsSub (blockOf (removeCR urlScenario))
      "See https://internal/doc for details".toList = true ∧
    lookupKV (extract_apm_from_text urlScenario) "MIO".toList =
      some "a@https://internal/doc".toList ∧
    containsSub "a@https://internal/doc".toList
      "https://internal/doc".toList = true := by
  refine ⟨by decide, by decide, by decide⟩
